import Mathlib

/-!
Shallow embedding of `src/main.rs` (GoodGas/gitpull): a project-list manager
that batch fast-forward-pulls registered git repositories.

The git library (`git2`) and the filesystem are modelled as oracles: a
`GitEnv` record carries the result of each git call a single project's sync
attempt can make, and repository mutations are recorded as an explicit event
list.  A returned `none` models a process abort (an `unwrap` on an `Err`).
Rust string functions (`str::lines`, `join`) are translated at the
character-list level with Rust's semantics.
-/

namespace Gitpull

/-- Project record (`struct Project`, src/main.rs lines 24–29). -/
structure Project where
  path : String
  name : String
  notes : String
deriving DecidableEq

/-- The mutable application state (`struct App`, lines 14–22), restricted to
the fields the store and sync logic touch (`config_path` and `font_size` are
UI plumbing). -/
structure App where
  projects : List Project
  new_project : Project
  selected_projects : List Bool
  progress : ℚ
  log_buffer : String
deriving DecidableEq

/-! ### Rust string semantics: `str::lines` and `join("\n")` -/

/-- Split a character list at every newline, keeping all (possibly empty)
segments, like Rust `str::split('\n')`. -/
def splitNl : List Char → List (List Char)
  | [] => [[]]
  | c :: cs =>
    if c = '\n' then [] :: splitNl cs
    else
      match splitNl cs with
      | [] => [[c]]
      | l :: ls => (c :: l) :: ls

/-- Remove one trailing carriage return, as Rust `str::lines` does per line. -/
def stripCr (l : List Char) : List Char :=
  if l.getLast? = some '\r' then l.dropLast else l

/-- Rust `str::lines`: split on newline, drop the trailing empty segment
produced by a final newline, strip one trailing `'\r'` from each line. -/
def rustLines (s : List Char) : List (List Char) :=
  let segs := splitNl s
  let segs := if segs.getLast? = some [] then segs.dropLast else segs
  segs.map stripCr

/-- `App::limit_log_buffer` (lines 248–255): keep only the last 1000 lines,
re-joined with `"\n"` (note: the re-join emits no trailing newline). -/
def limit_log_buffer (buf : String) : String :=
  let max_lines := 1000
  let lines := rustLines buf.data
  if lines.length > max_lines then
    String.mk (List.intercalate ['\n'] (lines.drop (lines.length - max_lines)))
  else buf

/-- `App::log_error` (lines 243–246): append `"[ERROR] " ++ message ++ "\n"`
then truncate with `limit_log_buffer`. -/
def log_error (message : String) (buf : String) : String :=
  limit_log_buffer (buf ++ ("[ERROR] " ++ message ++ "\n"))

/-! ### Git oracle and per-project sync -/

/-- The two flags of a `git2::MergeAnalysis` value that the code queries
(`is_up_to_date`, `is_fast_forward`); git2 reports them independently. -/
structure MergeAnalysisFlags where
  is_up_to_date : Bool
  is_fast_forward : Bool
deriving DecidableEq

/-- Oracle for the git calls one project's sync attempt performs, in the
order of src/main.rs lines 179–199.  `fetch_err = some e` models
`remote.fetch` returning `Err(e)`; `merge_analysis_res = none` models
`repo.merge_analysis` returning `Err`. -/
structure GitEnv where
  open_ok : Bool
  origin_ok : Bool
  fetch_err : Option String
  fetch_head_ok : Bool
  to_annotated_commit_ok : Bool
  fetch_commit_id : Nat
  merge_analysis_res : Option MergeAnalysisFlags
  find_branch_ok : Bool
  set_target_ok : Bool
  set_head_ok : Bool
  checkout_ok : Bool
deriving DecidableEq

/-- A durable repository mutation performed by the fast-forward arm. -/
inductive RepoMutation where
  | setTarget (refname : String) (id : Nat)
  | setHead (refname : String)
  | forceCheckout
deriving DecidableEq

/-- Log line of line 182 (fetch failure, carries the transport error text). -/
def fetchFailedMsg (e : String) : String := "[ERROR] 无法获取远程更新: " ++ e

/-- Log line of line 189 (already up to date). -/
def upToDateMsg (name : String) : String := "[INFO] 项目 " ++ name ++ " 已经是最新版本"

/-- Log line of line 196 (fast-forward applied). -/
def fastForwardedMsg (name : String) : String := "[INFO] 项目 " ++ name ++ " 更新成功"

/-- Log line of line 198 (diverged, manual resolution needed). -/
def conflictMsg (name : String) : String := "[ERROR] 项目 " ++ name ++ " 存在冲突,需要手动解决"

/-- Log line of line 201 (`FETCH_HEAD` could not be read). -/
def corruptFetchHeadMsg (name : String) : String :=
  "[ERROR] 项目 " ++ name ++ " 的 FETCH_HEAD 文件损坏或不存在"

/-- Log line of line 205 (no `origin` remote). -/
def remoteMissingMsg (name : String) : String :=
  "[ERROR] 无法找到远程仓库\x27origin\x27: " ++ name

/-- Log line of line 208 (repository failed to open). -/
def openFailedMsg (path : String) : String := "[ERROR] 无法打开仓库: " ++ path

/-- One project's sync attempt (body of the loop, src/main.rs lines 179–209).
Returns the log message pushed for the project and the repository mutations
performed, or `none` when the code would abort on an `unwrap`:
`reference_to_annotated_commit(..).unwrap()` (line 185),
`merge_analysis(..).unwrap()` (line 186), and the four `unwrap`s of the
fast-forward arm (lines 192–195). -/
def syncProject (env : GitEnv) (project : Project) : Option (String × List RepoMutation) :=
  if env.open_ok = false then some (openFailedMsg project.path, [])
  else if env.origin_ok = false then some (remoteMissingMsg project.name, [])
  else
    match env.fetch_err with
    | some e => some (fetchFailedMsg e, [])
    | none =>
      if env.fetch_head_ok = false then some (corruptFetchHeadMsg project.name, [])
      else if env.to_annotated_commit_ok = false then none
      else
        match env.merge_analysis_res with
        | none => none
        | some analysis =>
          if analysis.is_up_to_date then some (upToDateMsg project.name, [])
          else if analysis.is_fast_forward then
            if env.find_branch_ok && env.set_target_ok && env.set_head_ok
                && env.checkout_ok then
              some (fastForwardedMsg project.name,
                [RepoMutation.setTarget "refs/heads/master" env.fetch_commit_id,
                 RepoMutation.setHead "refs/heads/master",
                 RepoMutation.forceCheckout])
            else none
          else some (conflictMsg project.name, [])

/-! ### The batch loop -/

/-- Indices of the selected projects in selection (ascending) order
(lines 168–171). -/
def selectedIndices (selected : List Bool) : List Nat :=
  (selected.enum.filter (fun p => p.2)).map (fun p => p.1)

/-- The `for &index in &selected_projects` loop (lines 177–213): per index,
look the project up (`projects.get_mut(index)`, skipping silently when out of
range), run its sync attempt, then bump `completed` and report
`completed / total`.  Returns the pushed log messages, the sequence of
progress values assigned, and the repository mutations, or `none` when some
project attempt aborts the process. -/
def syncLoop (env : Nat → GitEnv) (projects : List Project) (total : ℚ) :
    List Nat → ℚ → Option (List String × List ℚ × List RepoMutation)
  | [], _ => some ([], [], [])
  | index :: rest, completed =>
    let step : Option (List String × List RepoMutation) :=
      match projects.get? index with
      | none => some ([], [])
      | some project =>
        match syncProject (env index) project with
        | none => none
        | some (msg, muts) => some ([msg], muts)
    match step with
    | none => none
    | some (msgs, muts) =>
      match syncLoop env projects total rest (completed + 1) with
      | none => none
      | some (msgs2, progs2, muts2) =>
        some (msgs ++ msgs2, ((completed + 1) / total) :: progs2, muts ++ muts2)

/-- Observable effects of one batch sync: the per-project log lines (in
order), the progress fractions assigned, the repository mutations, and the
configuration-file writes (none: `update_selected_projects` never calls
`save_config`). -/
structure SyncEffects where
  messages : List String
  progressReports : List ℚ
  repoMutations : List RepoMutation
  configWrites : List (List Project)
deriving DecidableEq

/-- `App::update_selected_projects` (lines 167–225): run the loop over the
selected indices (`total_projects` is their count), append every pushed
message (each followed by `"\n"`) to the log buffer, truncate it once, and
clear all selection flags.  `none` models a process abort inside the loop. -/
def update_selected_projects (env : Nat → GitEnv) (s : App) : Option (App × SyncEffects) :=
  match syncLoop env s.projects ((selectedIndices s.selected_projects).length : ℚ)
      (selectedIndices s.selected_projects) 0 with
  | none => none
  | some (msgs, progs, muts) =>
    some ({ s with
              progress := progs.getLast?.getD s.progress,
              log_buffer := limit_log_buffer
                (s.log_buffer ++ String.join (msgs.map (fun m => m ++ "\n"))),
              selected_projects := s.selected_projects.map (fun _ => false) },
          { messages := msgs, progressReports := progs, repoMutations := muts,
            configWrites := [] })

/-! ### Registration -/

/-- Oracle for the two read-only git calls registration performs
(`Repository::open`, `find_remote("origin")`, lines 95–96). -/
structure RegEnv where
  open_ok : Bool
  origin_ok : Bool
deriving DecidableEq

/-- Message of line 104 (`log_error` adds the `[ERROR] ` prefix). -/
def noOriginRemoteUiMsg (name : String) : String :=
  "项目 " ++ name ++ " 不是一个有效的Git仓库或没有origin远程仓库"

/-- Message of line 107. -/
def notARepositoryUiMsg (path : String) : String :=
  "项目路径 " ++ path ++ " 不存在或不是一个有效的Git仓库"

/-- Message of line 110. -/
def emptyFieldUiMsg : String := "项目路径和名称不能为空"

/-- The add-project button handler (lines 93–112).  Returns the new state and
the list of collections written to the configuration file (`save_config` on
success, nothing on failure). -/
def addProject (env : RegEnv) (s : App) : App × List (List Project) :=
  if !s.new_project.path.isEmpty && !s.new_project.name.isEmpty then
    if env.open_ok then
      if env.origin_ok then
        let projects2 := s.projects ++ [s.new_project]
        ({ s with projects := projects2,
                  selected_projects := s.selected_projects ++ [false],
                  new_project := { path := "", name := "", notes := "" } },
         [projects2])
      else
        ({ s with log_buffer := log_error (noOriginRemoteUiMsg s.new_project.name) s.log_buffer },
         [])
    else
      ({ s with log_buffer := log_error (notARepositoryUiMsg s.new_project.path) s.log_buffer },
       [])
  else
    ({ s with log_buffer := log_error emptyFieldUiMsg s.log_buffer }, [])

/-! ### Deletion -/

/-- Rust `Vec::remove(i)`: removes the element at `i`, shifting the rest
left; aborts the process (`none`) when `i` is out of range. -/
def removeVec {α : Type} (l : List α) (i : Nat) : Option (List α) :=
  if i < l.length then some (l.take i ++ l.drop (i + 1)) else none

/-- `indices_to_remove` (lines 228–233): the selected indices, collected in
reverse (descending) order. -/
def indicesToRemove (selected : List Bool) : List Nat :=
  (selectedIndices selected).reverse

/-- The removal loop of lines 235–238: for each index, `projects.remove`
then `selected_projects.remove`; `none` models the out-of-range abort. -/
def removeAllPair : List Nat → List Project × List Bool → Option (List Project × List Bool)
  | [], st => some st
  | i :: rest, (ps, sel) =>
    match removeVec ps i with
    | none => none
    | some ps2 =>
      match removeVec sel i with
      | none => none
      | some sel2 => removeAllPair rest (ps2, sel2)

/-- `App::delete_selected_projects` (lines 227–241): remove every selected
index from both vectors (descending order), then `save_config`. -/
def delete_selected_projects (s : App) : Option (App × List (List Project)) :=
  match removeAllPair (indicesToRemove s.selected_projects) (s.projects, s.selected_projects) with
  | none => none
  | some (ps2, sel2) =>
    some ({ s with projects := ps2, selected_projects := sel2 }, [ps2])

/-! ### Durable configuration: the serde_json image of the collection

`save_config` (lines 257–263) writes `serde_json::to_string_pretty(&projects)`
and `App::default` (lines 36–39) reads it back with
`serde_json::from_str(..).unwrap_or_default()`.  `serde_json` is an external
crate; it is modelled here character-for-character on this data shape: the
encoder reproduces `to_string_pretty`'s output (two-space indentation,
`", "`-free `",\n"` item separators, string escaping with `\"`, `\\`, `\b`,
`\t`, `\n`, `\f`, `\r` and lowercase `\u00XX` for other control characters),
and the decoder is a recursive-descent reader of that document shape
(fields in serialized order, arbitrary whitespace between tokens, the
standard JSON string escapes including `\uXXXX` for any valid scalar;
surrogate pairs are rejected rather than combined — the encoder never emits
them). -/

/-- Lowercase hexadecimal digit, as serde_json emits in `\u00XX` escapes. -/
def hexDigitChar (n : Nat) : Char :=
  if n < 10 then Char.ofNat (48 + n) else Char.ofNat (87 + n)

/-- serde_json's escaping of one character inside a JSON string literal. -/
def escapeChar (c : Char) : List Char :=
  if c = '\x22' then ['\\', '\x22']
  else if c = '\\' then ['\\', '\\']
  else if c = '\x08' then ['\\', 'b']
  else if c = '\t' then ['\\', 't']
  else if c = '\n' then ['\\', 'n']
  else if c = '\x0c' then ['\\', 'f']
  else if c = '\r' then ['\\', 'r']
  else if c.toNat < 32 then
    ['\\', 'u', '0', '0', hexDigitChar (c.toNat / 16), hexDigitChar (c.toNat % 16)]
  else [c]

/-- A JSON string literal: quote, escaped characters, quote. -/
def encodeString (s : String) : List Char :=
  '\x22' :: (s.data.flatMap escapeChar ++ ['\x22'])

/-- The pretty-printer's `"\n    \"key\": "` fragment before a field value
(newline, second-level indentation, quoted key, colon, space). -/
def keyPrefix (key : String) : List Char :=
  '\n' :: ' ' :: ' ' :: ' ' :: ' ' :: '\x22' :: (key.data ++ '\x22' :: ':' :: ' ' :: [])

/-- The pretty-printer's object close: newline, first-level indentation,
closing brace. -/
def objEnd : List Char := '\n' :: ' ' :: ' ' :: '\x7d' :: []

/-- One array element of the pretty-printed collection: the object for one
`Project`, indented one level (two spaces), fields in declaration order. -/
def encodeProject (p : Project) : List Char :=
  ' ' :: ' ' :: '\x7b' :: (keyPrefix "path" ++ (encodeString p.path
    ++ (',' :: (keyPrefix "name" ++ (encodeString p.name
    ++ (',' :: (keyPrefix "notes" ++ (encodeString p.notes ++ objEnd))))))))

/-- `serde_json::to_string_pretty(&Vec<Project>)` as a character list. -/
def encodeProjects (ps : List Project) : List Char :=
  match ps with
  | [] => ('[' :: [']'])
  | _ :: _ =>
    '[' :: '\n' :: (List.intercalate (',' :: ['\n']) (ps.map encodeProject)
      ++ ('\n' :: [']']))

/-- The string `save_config` writes to the configuration file. -/
def save_config (ps : List Project) : String := String.mk (encodeProjects ps)

/-- JSON insignificant whitespace. -/
def isWs (c : Char) : Bool := c = ' ' || c = '\n' || c = '\r' || c = '\t'

/-- Skip insignificant whitespace. -/
def skipWs (s : List Char) : List Char := s.dropWhile isWs

/-- Value of one hexadecimal digit (either case), `none` otherwise. -/
def hexVal? (c : Char) : Option Nat :=
  if '0' ≤ c ∧ c ≤ '9' then some (c.toNat - 48)
  else if 'a' ≤ c ∧ c ≤ 'f' then some (c.toNat - 87)
  else if 'A' ≤ c ∧ c ≤ 'F' then some (c.toNat - 55)
  else none

/-- Read the body of a JSON string literal (opening quote already consumed):
returns the decoded characters and the remaining input past the closing
quote.  Standard escapes; unescaped control characters and lone `\uXXXX`
surrogates are rejected. -/
def parseStringBody : List Char → Option (List Char × List Char)
  | [] => none
  | c :: rest =>
    if c = '\x22' then some ([], rest)
    else if c = '\\' then
      match rest with
      | [] => none
      | e :: rest1 =>
        if e = '\x22' then (parseStringBody rest1).map (fun r => ('\x22' :: r.1, r.2))
        else if e = '\\' then (parseStringBody rest1).map (fun r => ('\\' :: r.1, r.2))
        else if e = '/' then (parseStringBody rest1).map (fun r => ('/' :: r.1, r.2))
        else if e = 'b' then (parseStringBody rest1).map (fun r => ('\x08' :: r.1, r.2))
        else if e = 'f' then (parseStringBody rest1).map (fun r => ('\x0c' :: r.1, r.2))
        else if e = 'n' then (parseStringBody rest1).map (fun r => ('\n' :: r.1, r.2))
        else if e = 'r' then (parseStringBody rest1).map (fun r => ('\r' :: r.1, r.2))
        else if e = 't' then (parseStringBody rest1).map (fun r => ('\t' :: r.1, r.2))
        else if e = 'u' then
          match rest1 with
          | d1 :: d2 :: d3 :: d4 :: rest2 =>
            match hexVal? d1, hexVal? d2, hexVal? d3, hexVal? d4 with
            | some a, some b, some c2, some d =>
              if Nat.isValidChar (((a * 16 + b) * 16 + c2) * 16 + d) then
                (parseStringBody rest2).map
                  (fun r => (Char.ofNat (((a * 16 + b) * 16 + c2) * 16 + d) :: r.1, r.2))
              else none
            | _, _, _, _ => none
          | _ => none
        else none
    else if c.toNat < 32 then none
    else (parseStringBody rest).map (fun r => (c :: r.1, r.2))

/-- A JSON string literal, starting at its opening quote. -/
def parseJsonString : List Char → Option (List Char × List Char)
  | c :: rest => if c = '\x22' then parseStringBody rest else none
  | [] => none

/-- One expected punctuation character. -/
def expectChar (c : Char) : List Char → Option (List Char)
  | x :: rest => if x = c then some rest else none
  | [] => none

/-- `"key": "value"` with surrounding whitespace; returns the decoded value. -/
def parseField (key : String) (s : List Char) : Option (List Char × List Char) :=
  (parseJsonString (skipWs s)).bind fun kr =>
    if kr.1 = key.data then
      (expectChar ':' (skipWs kr.2)).bind fun r2 => parseJsonString (skipWs r2)
    else none

/-- One `Project` object, fields in serialized order. -/
def parseProject (s : List Char) : Option (Project × List Char) :=
  (expectChar '\x7b' (skipWs s)).bind fun r1 =>
  (parseField "path" r1).bind fun pr =>
  (expectChar ',' (skipWs pr.2)).bind fun r3 =>
  (parseField "name" r3).bind fun nr =>
  (expectChar ',' (skipWs nr.2)).bind fun r5 =>
  (parseField "notes" r5).bind fun tr =>
  (expectChar '\x7d' (skipWs tr.2)).map fun r7 =>
    ({ path := String.mk pr.1, name := String.mk nr.1, notes := String.mk tr.1 }, r7)

/-- The non-empty element list of the array: one object, then either `,` and
more elements or the closing `]`.  Fuel bounds the element count. -/
def parseItemsAux : Nat → List Char → Option (List Project × List Char)
  | 0, _ => none
  | fuel + 1, s =>
    (parseProject s).bind fun pr =>
      if (skipWs pr.2).head? = some ',' then
        (parseItemsAux fuel (skipWs pr.2).tail).map (fun r => (pr.1 :: r.1, r.2))
      else if (skipWs pr.2).head? = some ']' then some ([pr.1], (skipWs pr.2).tail)
      else none

/-- `serde_json::from_str::<Vec<Project>>` on the serialized document shape:
a whole-input JSON array of `Project` objects. -/
def parseProjects (s : List Char) : Option (List Project) :=
  if (skipWs s).head? = some '[' then
    if (skipWs (skipWs s).tail).head? = some ']' then
      if skipWs (skipWs (skipWs s).tail).tail = [] then some [] else none
    else
      (parseItemsAux (s.length + 1) (skipWs (skipWs s).tail)).bind fun pr =>
        if skipWs pr.2 = [] then some pr.1 else none
  else none

/-- Reading the collection at startup (lines 36–39): a missing file yields
the empty collection, and an unparsable one falls back to
`Vec::default()` via `unwrap_or_default`. -/
def loadProjects (contents : Option String) : List Project :=
  match contents with
  | none => []
  | some c => (parseProjects c.data).getD []

/-- `App::default` (lines 31–57): load the collection from the configuration
file's contents and start with one unchecked selection flag per project, zero
progress, and an empty log. -/
def appDefault (contents : Option String) : App :=
  let projects := loadProjects contents
  { projects := projects,
    new_project := { path := "", name := "", notes := "" },
    selected_projects := List.replicate projects.length false,
    progress := 0,
    log_buffer := "" }

/-! ## Verification

### Deletion: removing a descending index list is positional filtering -/

/-- The elements surviving when the positions listed in `idx` are removed,
positions counted from `n`: positional filtering, preserving relative order. -/
def keepIdxFrom {α : Type} (idx : List Nat) : Nat → List α → List α
  | _, [] => []
  | n, a :: as =>
    if n ∈ idx then keepIdxFrom idx (n + 1) as else a :: keepIdxFrom idx (n + 1) as

/-- The survivors at the selected positions of `sel` removed from `l`. -/
def keepUnselected {α : Type} (sel : List Bool) (l : List α) : List α :=
  keepIdxFrom (selectedIndices sel) 0 l

/-- Single-vector version of the removal loop of lines 235–238. -/
def removeAllG {α : Type} : List Nat → List α → Option (List α)
  | [], l => some l
  | i :: rest, l =>
    match removeVec l i with
    | none => none
    | some l2 => removeAllG rest l2

theorem removeAllPair_eq_some {idx : List Nat} : ∀ {ps : List Project} {sel : List Bool}
    {ps2 : List Project} {sel2 : List Bool},
    removeAllPair idx (ps, sel) = some (ps2, sel2) ↔
      removeAllG idx ps = some ps2 ∧ removeAllG idx sel = some sel2 := by
  induction idx with
  | nil => intro ps sel ps2 sel2; simp [removeAllPair, removeAllG]
  | cons i rest ih =>
    intro ps sel ps2 sel2
    simp only [removeAllPair, removeAllG]
    cases hps : removeVec ps i with
    | none => simp
    | some ps3 =>
      cases hsel : removeVec sel i with
      | none => simp
      | some sel3 => simpa using ih

theorem keepIdxFrom_append {α : Type} (idx : List Nat) (A B : List α) :
    ∀ n, keepIdxFrom idx n (A ++ B) =
      keepIdxFrom idx n A ++ keepIdxFrom idx (n + A.length) B := by
  induction A with
  | nil => intro n; simp [keepIdxFrom]
  | cons a as ih =>
    intro n
    have harith : n + (as.length + 1) = (n + 1) + as.length := by omega
    by_cases h : n ∈ idx <;>
      simp [keepIdxFrom, h, ih (n + 1), List.length_cons, harith]

theorem keepIdxFrom_all_lt {α : Type} (idx : List Nat) (B : List α) :
    ∀ n, (∀ j ∈ idx, j < n) → keepIdxFrom idx n B = B := by
  induction B with
  | nil => intro n _; rfl
  | cons b bs ih =>
    intro n h
    have hn : n ∉ idx := fun hm => absurd (h n hm) (lt_irrefl n)
    simp [keepIdxFrom, hn, ih (n + 1) (fun j hj => Nat.lt_succ_of_lt (h j hj))]

theorem keepIdxFrom_erase_head {α : Type} (i : Nat) (rest : List Nat) (A : List α) :
    ∀ n, n + A.length ≤ i → keepIdxFrom (i :: rest) n A = keepIdxFrom rest n A := by
  induction A with
  | nil => intro n _; rfl
  | cons a as ih =>
    intro n h
    have hlen : (a :: as).length = as.length + 1 := rfl
    have hni : (n = i) = False := by
      simp only [eq_iff_iff, iff_false]
      intro hEq; rw [hlen] at h; omega
    have hrec := ih (n + 1) (by rw [hlen] at h; omega)
    by_cases hm : n ∈ rest <;>
      simp [keepIdxFrom, List.mem_cons, hni, hm, hrec]

theorem keepIdxFrom_congr {α : Type} (idx1 idx2 : List Nat)
    (hm : ∀ j, j ∈ idx1 ↔ j ∈ idx2) (l : List α) :
    ∀ n, keepIdxFrom idx1 n l = keepIdxFrom idx2 n l := by
  induction l with
  | nil => intro n; rfl
  | cons a as ih =>
    intro n
    by_cases h : n ∈ idx1
    · simp [keepIdxFrom, h, (hm n).mp h, ih (n + 1)]
    · have h2 : n ∉ idx2 := fun hx => h ((hm n).mpr hx)
      simp [keepIdxFrom, h, h2, ih (n + 1)]

theorem removeAllG_eq_keep {α : Type} : ∀ (idx : List Nat) (l : List α),
    idx.Pairwise (· > ·) → (∀ i ∈ idx, i < l.length) →
    removeAllG idx l = some (keepIdxFrom idx 0 l) := by
  intro idx
  induction idx with
  | nil =>
    intro l _ _
    simp [removeAllG, keepIdxFrom_all_lt [] l 0 (by simp)]
  | cons i rest ih =>
    intro l hpw hlt
    have hi : i < l.length := hlt i (by simp)
    have hrest : ∀ j ∈ rest, j < i := fun j hj => (List.pairwise_cons.mp hpw).1 j hj
    have htake : (l.take i).length = i := by simp [List.length_take]; omega
    simp only [removeAllG, removeVec, hi, if_pos]
    have hlen : (l.take i ++ l.drop (i + 1)).length = l.length - 1 := by
      simp [List.length_take, List.length_drop]; omega
    rw [ih (l.take i ++ l.drop (i + 1)) (List.pairwise_cons.mp hpw).2
      (fun j hj => by rw [hlen]; have := hrest j hj; omega)]
    congr 1
    have hsplit : l = l.take i ++ l.get ⟨i, hi⟩ :: l.drop (i + 1) := by
      conv_lhs => rw [← List.take_append_drop i l]
      rw [List.drop_eq_getElem_cons hi]
      rfl
    calc keepIdxFrom rest 0 (l.take i ++ l.drop (i + 1))
        = keepIdxFrom rest 0 (l.take i)
            ++ keepIdxFrom rest (0 + (l.take i).length) (l.drop (i + 1)) :=
          keepIdxFrom_append rest _ _ 0
      _ = keepIdxFrom rest 0 (l.take i) ++ l.drop (i + 1) := by
          rw [keepIdxFrom_all_lt rest _ (0 + (l.take i).length)
            (fun j hj => by rw [htake]; have := hrest j hj; omega)]
      _ = keepIdxFrom (i :: rest) 0 l := by
          conv_rhs => rw [hsplit]
          rw [keepIdxFrom_append (i :: rest) _ _ 0,
            keepIdxFrom_erase_head i rest _ 0 (by rw [htake]; omega)]
          congr 1
          rw [htake, Nat.zero_add]
          simp only [keepIdxFrom]
          rw [if_pos (List.mem_cons_self i rest)]
          exact (keepIdxFrom_all_lt (i :: rest) _ (i + 1)
            (fun j hj => by rcases List.mem_cons.mp hj with h | h
                            · omega
                            · have := hrest j h; omega)).symm

theorem selectedIndices_mem_lt (sel : List Bool) :
    ∀ i ∈ selectedIndices sel, i < sel.length := by
  intro i hi
  simp only [selectedIndices, List.mem_map] at hi
  obtain ⟨p, hp, rfl⟩ := hi
  exact List.fst_lt_of_mem_enum (List.mem_of_mem_filter hp)

theorem selectedIndices_pairwise (sel : List Bool) :
    (selectedIndices sel).Pairwise (· < ·) := by
  have hsub : List.Sublist (selectedIndices sel) (sel.enum.map Prod.fst) :=
    List.Sublist.map Prod.fst (List.filter_sublist sel.enum)
  rw [List.enum_map_fst] at hsub
  exact List.Pairwise.sublist hsub (List.pairwise_lt_range sel.length)

theorem indicesToRemove_pairwise (sel : List Bool) :
    (indicesToRemove sel).Pairwise (· > ·) := by
  rw [indicesToRemove, List.pairwise_reverse]
  exact selectedIndices_pairwise sel

theorem removeVec_length {α : Type} {l l2 : List α} {i : Nat}
    (h : removeVec l i = some l2) : l2.length + 1 = l.length := by
  simp only [removeVec] at h
  split at h
  · cases h
    simp only [List.length_append, List.length_take, List.length_drop]
    omega
  · cases h

theorem removeAllPair_length : ∀ (idx : List Nat) (ps : List Project) (sel : List Bool)
    (ps2 : List Project) (sel2 : List Bool), ps.length = sel.length →
    removeAllPair idx (ps, sel) = some (ps2, sel2) → ps2.length = sel2.length := by
  intro idx
  induction idx with
  | nil =>
    intro ps sel ps2 sel2 hlen h
    simp only [removeAllPair, Option.some.injEq, Prod.mk.injEq] at h
    rw [← h.1, ← h.2]; exact hlen
  | cons i rest ih =>
    intro ps sel ps2 sel2 hlen h
    simp only [removeAllPair] at h
    cases hps : removeVec ps i with
    | none => rw [hps] at h; cases h
    | some ps3 =>
      rw [hps] at h
      cases hsel : removeVec sel i with
      | none => rw [hsel] at h; cases h
      | some sel3 =>
        rw [hsel] at h
        exact ih ps3 sel3 ps2 sel2
          (by have := removeVec_length hps; have := removeVec_length hsel; omega) h

/-- The removal loop computes positional filtering on both vectors whenever
every selected index is in range of the respective vector. -/
theorem removeAllPair_eq_keep (ps : List Project) (sel : List Bool)
    (hps : ∀ i ∈ selectedIndices sel, i < ps.length) :
    removeAllPair (indicesToRemove sel) (ps, sel) =
      some (keepUnselected sel ps, keepUnselected sel sel) := by
  have hmem : ∀ j, j ∈ indicesToRemove sel ↔ j ∈ selectedIndices sel := by
    intro j; rw [indicesToRemove, List.mem_reverse]
  rw [removeAllPair_eq_some]
  constructor
  · rw [removeAllG_eq_keep (indicesToRemove sel) ps (indicesToRemove_pairwise sel)
      (fun i hi => hps i ((hmem i).mp hi))]
    rw [keepUnselected, keepIdxFrom_congr (indicesToRemove sel) (selectedIndices sel) hmem ps 0]
  · rw [removeAllG_eq_keep (indicesToRemove sel) sel (indicesToRemove_pairwise sel)
      (fun i hi => selectedIndices_mem_lt sel i ((hmem i).mp hi))]
    rw [keepUnselected, keepIdxFrom_congr (indicesToRemove sel) (selectedIndices sel) hmem sel 0]

/-! ### The sync loop: progress arithmetic and batch completion -/

/-- The sequence of progress values the loop assigns over `n` iterations
starting from `completed` processed projects. -/
def progressSeq (total completed : ℚ) (n : Nat) : List ℚ :=
  (List.range n).map (fun k : Nat => (completed + (k : ℚ) + 1) / total)

theorem progressSeq_succ (total completed : ℚ) (n : Nat) :
    progressSeq total completed (n + 1) =
      ((completed + 1) / total) :: progressSeq total (completed + 1) n := by
  simp only [progressSeq, List.range_succ_eq_map, List.map_cons, List.map_map]
  congr 1
  · norm_num
  · apply List.map_congr_left
    intro k _
    simp only [Function.comp_apply, Nat.succ_eq_add_one]
    push_cast
    ring_nf

theorem progressSeq_getLast (total : ℚ) (n : Nat) (h : 0 < n) : ∀ completed : ℚ,
    (progressSeq total completed n).getLast? = some ((completed + n) / total) := by
  induction n with
  | zero => exact absurd h (lt_irrefl 0)
  | succ m ih =>
    intro c
    rw [progressSeq_succ]
    cases m with
    | zero =>
      simp only [progressSeq, List.range_zero, List.map_nil, List.getLast?_singleton]
      norm_num
    | succ m2 =>
      rw [progressSeq_succ, List.getLast?_cons_cons, ← progressSeq_succ,
        ih (Nat.succ_pos m2) (c + 1)]
      congr 1
      push_cast
      ring

theorem syncLoop_eq (env : Nat → GitEnv) (projects : List Project) (total : ℚ) :
    ∀ (indices : List Nat) (completed : ℚ),
    (∀ i ∈ indices, ∀ p, projects.get? i = some p → syncProject (env i) p ≠ none) →
    ∃ muts, syncLoop env projects total indices completed =
      some (indices.filterMap
              (fun i => (projects.get? i).bind (fun p => (syncProject (env i) p).map Prod.fst)),
            progressSeq total completed indices.length, muts) := by
  intro indices
  induction indices with
  | nil =>
    intro completed _
    exact ⟨[], by simp [syncLoop, progressSeq]⟩
  | cons i rest ih =>
    intro completed h
    obtain ⟨mu, hmu⟩ := ih (completed + 1) (fun j hj => h j (List.mem_cons_of_mem i hj))
    cases hget : projects.get? i with
    | none =>
      refine ⟨mu, ?_⟩
      simp only [syncLoop, hget, hmu, List.filterMap_cons, Option.none_bind,
        List.length_cons, progressSeq_succ]
      simp
    | some p =>
      have hnp := h i (List.mem_cons_self i rest) p hget
      cases hsp : syncProject (env i) p with
      | none => exact absurd hsp hnp
      | some pr =>
        obtain ⟨msg, mu0⟩ := pr
        refine ⟨mu0 ++ mu, ?_⟩
        simp only [syncLoop, hget, hsp, hmu, List.filterMap_cons, Option.some_bind,
          Option.map_some', List.length_cons, progressSeq_succ]
        simp

theorem syncLoop_some_progs (env : Nat → GitEnv) (projects : List Project) (total : ℚ) :
    ∀ (indices : List Nat) (completed : ℚ) (msgs : List String) (progs : List ℚ)
      (muts : List RepoMutation),
    syncLoop env projects total indices completed = some (msgs, progs, muts) →
    progs = progressSeq total completed indices.length := by
  intro indices
  induction indices with
  | nil =>
    intro c msgs progs muts h
    simp only [syncLoop, Option.some.injEq, Prod.mk.injEq] at h
    simp [← h.2.1, progressSeq]
  | cons i rest ih =>
    intro c msgs progs muts h
    simp only [syncLoop] at h
    cases hget : projects.get? i with
    | none =>
      rw [hget] at h
      simp only at h
      cases hrec : syncLoop env projects total rest (c + 1) with
      | none => rw [hrec] at h; cases h
      | some tr =>
        obtain ⟨m2, p2, mu2⟩ := tr
        rw [hrec] at h
        simp only [Option.some.injEq, Prod.mk.injEq] at h
        rw [List.length_cons, progressSeq_succ, ← h.2.1, ih (c + 1) m2 p2 mu2 hrec]
    | some p =>
      rw [hget] at h
      simp only at h
      cases hsp : syncProject (env i) p with
      | none => rw [hsp] at h; cases h
      | some pr =>
        obtain ⟨msg, mu0⟩ := pr
        rw [hsp] at h
        simp only at h
        cases hrec : syncLoop env projects total rest (c + 1) with
        | none => rw [hrec] at h; cases h
        | some tr =>
          obtain ⟨m2, p2, mu2⟩ := tr
          rw [hrec] at h
          simp only [Option.some.injEq, Prod.mk.injEq] at h
          rw [List.length_cons, progressSeq_succ, ← h.2.1, ih (c + 1) m2 p2 mu2 hrec]

/-! ### Concrete fixtures for witnesses and counterexamples -/

/-- A registered project. -/
def pW0 : Project := { path := "/repos/alpha", name := "alpha", notes := "" }

/-- A second registered project. -/
def pW1 : Project := { path := "/repos/beta", name := "beta", notes := "" }

/-- A third registered project. -/
def pW2 : Project := { path := "/repos/gamma", name := "gamma", notes := "" }

/-- A fourth registered project. -/
def pW3 : Project := { path := "/repos/delta", name := "delta", notes := "" }

/-- A git environment in which every call succeeds and the merge analysis
reports up-to-date. -/
def envAllOk : GitEnv :=
  { open_ok := true, origin_ok := true, fetch_err := none, fetch_head_ok := true,
    to_annotated_commit_ok := true, fetch_commit_id := 42,
    merge_analysis_res := some { is_up_to_date := true, is_fast_forward := false },
    find_branch_ok := true, set_target_ok := true, set_head_ok := true, checkout_ok := true }

/-- Everything succeeds and the analysis reports fast-forwardable. -/
def envFF : GitEnv :=
  { envAllOk with merge_analysis_res := some { is_up_to_date := false, is_fast_forward := true } }

/-- `merge_analysis` itself fails. -/
def envAnalysisErr : GitEnv := { envAllOk with merge_analysis_res := none }

/-- `reference_to_annotated_commit` on `FETCH_HEAD` fails. -/
def envConvErr : GitEnv := { envAllOk with to_annotated_commit_ok := false }

/-- `FETCH_HEAD` cannot be read at all. -/
def envFHMissing : GitEnv := { envAllOk with fetch_head_ok := false }

/-- Fast-forwardable, but looking up `refs/heads/master` fails. -/
def envFindBranchErr : GitEnv := { envFF with find_branch_ok := false }

/-- Fast-forwardable, but the forced checkout fails. -/
def envCheckoutErr : GitEnv := { envFF with checkout_ok := false }

/-- One project, selected. -/
def appOneSel : App :=
  { projects := [pW0], new_project := { path := "", name := "", notes := "" },
    selected_projects := [true], progress := 0, log_buffer := "" }

/-- Two projects, both selected. -/
def appTwoSel : App :=
  { projects := [pW0, pW1], new_project := { path := "", name := "", notes := "" },
    selected_projects := [true, true], progress := 0, log_buffer := "" }

/-- Four projects with positions 1 and 3 selected (the spec's example). -/
def appFour : App :=
  { projects := [pW0, pW1, pW2, pW3], new_project := { path := "", name := "", notes := "" },
    selected_projects := [false, true, false, true], progress := 0, log_buffer := "" }

/-- One project but a selection vector of length two whose out-of-range
position is selected. -/
def appOORSel : App :=
  { projects := [pW0], new_project := { path := "", name := "", notes := "" },
    selected_projects := [false, true], progress := 0, log_buffer := "" }

/-- A state with a filled-in registration form. -/
def appReg : App :=
  { projects := [pW0], new_project := { path := "/repos/new", name := "new", notes := "todo" },
    selected_projects := [false], progress := 0, log_buffer := "" }

/-- `appFour` after deleting the selected positions 1 and 3. -/
def appFourAfterDelete : App :=
  { appFour with projects := [pW0, pW2], selected_projects := [false, false] }

/-! ### C1 — per-project error isolation in the batch -/

/-- C1, counterexample to the claim as stated: a per-project failure of
`merge_analysis` is not caught and converted to a log line — the
`unwrap` on line 186 aborts the whole batch (modelled as `none`). -/
theorem C1_counterexample :
    update_selected_projects (fun _ => envAnalysisErr) appOneSel = none := by decide

/-- C1 (amended): when none of the per-project git calls hits one of the
`unwrap`ed failure points (`FETCH_HEAD`-to-commit conversion, merge analysis,
and the four fast-forward operations), the batch always completes, converting
each of the remaining failure modes (open failure, missing origin, fetch
failure, unreadable `FETCH_HEAD`) into one log line for that project only,
through exactly the selected projects in selection order. -/
theorem C1_batch_isolation (env : Nat → GitEnv) (s : App)
    (h : ∀ i ∈ selectedIndices s.selected_projects,
      (s.projects.get? i).all (fun p => (syncProject (env i) p).isSome) = true) :
    ∃ r, update_selected_projects env s = some r ∧
      r.2.messages = (selectedIndices s.selected_projects).filterMap
        (fun i => (s.projects.get? i).bind (fun p => (syncProject (env i) p).map Prod.fst)) ∧
      r.2.progressReports.length = (selectedIndices s.selected_projects).length := by
  have h' : ∀ i ∈ selectedIndices s.selected_projects, ∀ p,
      s.projects.get? i = some p → syncProject (env i) p ≠ none := by
    intro i hi p hp
    have := h i hi
    rw [hp] at this
    simp only [Option.all_some] at this
    exact Option.isSome_iff_ne_none.mp this
  obtain ⟨mu, hmu⟩ := syncLoop_eq env s.projects
    ((selectedIndices s.selected_projects).length : ℚ)
    (selectedIndices s.selected_projects) 0 h'
  simp only [update_selected_projects, hmu]
  refine ⟨_, rfl, rfl, ?_⟩
  simp [progressSeq]

/-- C1 witness: a fully successful two-project batch. -/
theorem C1_witness :
    ∃ r, update_selected_projects (fun _ => envAllOk) appTwoSel = some r ∧
      r.2.messages = (selectedIndices appTwoSel.selected_projects).filterMap
        (fun i => (appTwoSel.projects.get? i).bind
          (fun p => (syncProject ((fun _ => envAllOk) i) p).map Prod.fst)) ∧
      r.2.progressReports.length = (selectedIndices appTwoSel.selected_projects).length :=
  C1_batch_isolation (fun _ => envAllOk) appTwoSel (by decide)

/-! ### C2 — unreadable FETCH_HEAD versus failed commit conversion -/

/-- C2, counterexample to the claim as stated: in a two-project batch whose
first project's `FETCH_HEAD` reference is readable but cannot be converted to
a commit, the outcome is not `CorruptFetchHead` and processing does not
continue with the next project — the `unwrap` on line 185 aborts the batch. -/
theorem C2_counterexample :
    update_selected_projects (fun i => if i = 0 then envConvErr else envAllOk) appTwoSel
      = none := by decide

/-- C2 (amended): after a successful fetch, an unreadable `FETCH_HEAD`
reference produces the `CorruptFetchHead` error log line (with no repository
mutation) for that project; but a `FETCH_HEAD` that is readable and merely
cannot be converted to a commit panics the process instead. -/
theorem C2_corrupt_fetch_head (env : GitEnv) (p : Project)
    (hOpen : env.open_ok = true) (hOrigin : env.origin_ok = true)
    (hFetch : env.fetch_err = none) :
    (env.fetch_head_ok = false → syncProject env p = some (corruptFetchHeadMsg p.name, [])) ∧
    (env.fetch_head_ok = true → env.to_annotated_commit_ok = false →
      syncProject env p = none) := by
  constructor
  · intro hFH
    simp [syncProject, hOpen, hOrigin, hFetch, hFH]
  · intro hFH hConv
    simp [syncProject, hOpen, hOrigin, hFetch, hFH, hConv]

/-- C2 witness: both legs at concrete inputs. -/
theorem C2_witness :
    syncProject envFHMissing pW0 = some (corruptFetchHeadMsg pW0.name, []) ∧
    syncProject envConvErr pW0 = none :=
  ⟨(C2_corrupt_fetch_head envFHMissing pW0 rfl rfl rfl).1 rfl,
   (C2_corrupt_fetch_head envConvErr pW0 rfl rfl rfl).2 rfl rfl⟩

/-! ### C3 — the three merge-analysis outcomes -/

/-- C3, counterexample to the claim as stated: with a successful merge
analysis reporting fast-forwardable, a failing `refs/heads/master` lookup
(line 192's `unwrap`) produces none of the three outcomes — the process
aborts. -/
theorem C3_counterexample : syncProject envFindBranchErr pW0 = none := by decide

/-- C3 (amended): when the merge analysis succeeds — and, in the
fast-forward case, the branch lookup, ref-target update, HEAD update and
forced checkout also succeed — exactly one of the three outcomes is
produced, in the code's precedence: up-to-date first (no mutation), then
fast-forward (ref advanced to the fetched commit id, HEAD set to
`refs/heads/master`, forced checkout), otherwise the conflict report (no
mutation). -/
theorem C3_merge_outcomes (env : GitEnv) (p : Project) (flags : MergeAnalysisFlags)
    (hOpen : env.open_ok = true) (hOrigin : env.origin_ok = true)
    (hFetch : env.fetch_err = none) (hFH : env.fetch_head_ok = true)
    (hConv : env.to_annotated_commit_ok = true)
    (hA : env.merge_analysis_res = some flags)
    (hFF : flags.is_up_to_date = false → flags.is_fast_forward = true →
      (env.find_branch_ok && env.set_target_ok && env.set_head_ok && env.checkout_ok) = true) :
    syncProject env p = some (
      if flags.is_up_to_date then (upToDateMsg p.name, [])
      else if flags.is_fast_forward then
        (fastForwardedMsg p.name,
          [RepoMutation.setTarget "refs/heads/master" env.fetch_commit_id,
           RepoMutation.setHead "refs/heads/master", RepoMutation.forceCheckout])
      else (conflictMsg p.name, [])) := by
  cases hu : flags.is_up_to_date with
  | true => simp [syncProject, hOpen, hOrigin, hFetch, hFH, hConv, hA, hu]
  | false =>
    cases hf : flags.is_fast_forward with
    | true =>
      have hops := hFF hu hf
      simp [syncProject, hOpen, hOrigin, hFetch, hFH, hConv, hA, hu, hf, hops]
    | false => simp [syncProject, hOpen, hOrigin, hFetch, hFH, hConv, hA, hu, hf]

/-- C3 witness: the fast-forward leg at a concrete input. -/
theorem C3_witness :
    syncProject envFF pW0 = some (fastForwardedMsg pW0.name,
      [RepoMutation.setTarget "refs/heads/master" envFF.fetch_commit_id,
       RepoMutation.setHead "refs/heads/master", RepoMutation.forceCheckout]) := by
  have := C3_merge_outcomes envFF pW0
    { is_up_to_date := false, is_fast_forward := true } rfl rfl rfl rfl rfl rfl (by decide)
  simpa using this

/-! ### C4 — registration validation and persistence -/

/-- C4: registration fails on an empty path or name (regardless of notes),
then on a path that does not open as a repository, then on a missing
`origin` remote — leaving the collection unchanged and writing nothing —
and on success appends the candidate and persists the full collection. -/
theorem C4_registration (env : RegEnv) (s : App) :
    (s.new_project.path = "" ∨ s.new_project.name = "" →
      addProject env s = ({ s with log_buffer := log_error emptyFieldUiMsg s.log_buffer }, [])) ∧
    (s.new_project.path ≠ "" → s.new_project.name ≠ "" → env.open_ok = false →
      addProject env s =
        ({ s with log_buffer := log_error (notARepositoryUiMsg s.new_project.path) s.log_buffer },
         [])) ∧
    (s.new_project.path ≠ "" → s.new_project.name ≠ "" → env.open_ok = true →
      env.origin_ok = false →
      addProject env s =
        ({ s with log_buffer := log_error (noOriginRemoteUiMsg s.new_project.name) s.log_buffer },
         [])) ∧
    (s.new_project.path ≠ "" → s.new_project.name ≠ "" → env.open_ok = true →
      env.origin_ok = true →
      addProject env s =
        ({ s with projects := s.projects ++ [s.new_project],
                  selected_projects := s.selected_projects ++ [false],
                  new_project := { path := "", name := "", notes := "" } },
         [s.projects ++ [s.new_project]])) := by
  have hbool : s.new_project.path ≠ "" → s.new_project.name ≠ "" →
      (!s.new_project.path.isEmpty && !s.new_project.name.isEmpty) = true := by
    intro hp hn
    have hbp : s.new_project.path.isEmpty = false := by
      rw [Bool.eq_false_iff]
      intro hx
      exact hp ((String.isEmpty_iff s.new_project.path).mp hx)
    have hbn : s.new_project.name.isEmpty = false := by
      rw [Bool.eq_false_iff]
      intro hx
      exact hn ((String.isEmpty_iff s.new_project.name).mp hx)
    simp [hbp, hbn]
  refine ⟨?_, ?_, ?_, ?_⟩
  · intro hempty
    have : (!s.new_project.path.isEmpty && !s.new_project.name.isEmpty) = false := by
      rcases hempty with h | h <;>
        simp [h, String.isEmpty_iff]
    simp [addProject, this]
  · intro hp hn hopen
    simp [addProject, hbool hp hn, hopen]
  · intro hp hn hopen horigin
    simp [addProject, hbool hp hn, hopen, horigin]
  · intro hp hn hopen horigin
    simp [addProject, hbool hp hn, hopen, horigin]

/-- C4 witness: a successful registration at a concrete state. -/
theorem C4_witness :
    addProject { open_ok := true, origin_ok := true } appReg =
      ({ appReg with projects := appReg.projects ++ [appReg.new_project],
                     selected_projects := appReg.selected_projects ++ [false],
                     new_project := { path := "", name := "", notes := "" } },
       [appReg.projects ++ [appReg.new_project]]) :=
  (C4_registration { open_ok := true, origin_ok := true } appReg).2.2.2
    (by decide) (by decide) rfl rfl

/-! ### C5 — progress fractions -/

/-- C5, counterexample to the claim as stated: a selection of one project
(`N = 1 > 0`) whose forced checkout fails does not report the fraction
sequence `[1.0]` — the batch aborts before any progress is assigned. -/
theorem C5_counterexample :
    update_selected_projects (fun _ => envCheckoutErr) appOneSel = none := by decide

/-- C5 (amended): whenever the batch completes (no per-project `unwrap`
failure aborts it), the reported fractions are exactly `1/N, 2/N, …, N/N` in
order — one per processed project regardless of its outcome — ending at
`1`; and for an empty selection the batch still completes, reports nothing,
and leaves the progress value unchanged. -/
theorem C5_progress (env : Nat → GitEnv) (s : App) :
    (∀ r, update_selected_projects env s = some r →
      r.2.progressReports =
        (List.range (selectedIndices s.selected_projects).length).map
          (fun k : Nat => ((k : ℚ) + 1) / ((selectedIndices s.selected_projects).length : ℚ)) ∧
      (0 < (selectedIndices s.selected_projects).length →
        r.2.progressReports.getLast? = some 1)) ∧
    (selectedIndices s.selected_projects = [] →
      ∃ r, update_selected_projects env s = some r ∧ r.2.progressReports = [] ∧
        r.1.progress = s.progress) := by
  constructor
  · intro r h
    simp only [update_selected_projects] at h
    cases hsl : syncLoop env s.projects ((selectedIndices s.selected_projects).length : ℚ)
        (selectedIndices s.selected_projects) 0 with
    | none => rw [hsl] at h; cases h
    | some tr =>
      obtain ⟨msgs, progs, muts⟩ := tr
      rw [hsl] at h
      simp only [Option.some.injEq] at h
      have hp := syncLoop_some_progs env s.projects
        ((selectedIndices s.selected_projects).length : ℚ)
        (selectedIndices s.selected_projects) 0 msgs progs muts hsl
      have hrep : r.2.progressReports = progs := by rw [← h]
      constructor
      · rw [hrep, hp]
        simp [progressSeq]
      · intro hpos
        rw [hrep, hp, progressSeq_getLast _ _ hpos 0]
        have hne : ((selectedIndices s.selected_projects).length : ℚ) ≠ 0 := by
          exact_mod_cast Nat.pos_iff_ne_zero.mp hpos
        rw [zero_add, div_self hne]
  · intro hempty
    simp only [update_selected_projects, hempty, syncLoop]
    exact ⟨_, rfl, rfl, rfl⟩

/-- C5 witness: the empty-selection leg at a concrete state. -/
theorem C5_witness :
    ∃ r, update_selected_projects (fun _ => envAllOk) (appDefault none) = some r ∧
      r.2.progressReports = [] ∧ r.1.progress = (appDefault none).progress :=
  (C5_progress (fun _ => envAllOk) (appDefault none)).2 rfl

/-! ### C6 — deletion -/

/-- C6, counterexample to the claim as stated: an out-of-range selected
index is not silently ignored — `Vec::remove` on line 236 panics
(modelled as `none`), so the collection is not re-persisted either. -/
theorem C6_counterexample : delete_selected_projects appOORSel = none := by decide

/-- C6 (amended): when every selected index is in range of the project
collection, deletion removes exactly the records at the selected positions,
the survivors keep their original relative order, and the result is
re-persisted; an out-of-range selected index instead panics the process. -/
theorem C6_delete (s : App)
    (h : ∀ i ∈ selectedIndices s.selected_projects, i < s.projects.length) :
    delete_selected_projects s =
      some ({ s with projects := keepUnselected s.selected_projects s.projects,
                     selected_projects := keepUnselected s.selected_projects s.selected_projects },
            [keepUnselected s.selected_projects s.projects]) := by
  simp only [delete_selected_projects]
  rw [removeAllPair_eq_keep s.projects s.selected_projects h]

/-- C6 witness: the spec's own example — deleting positions 1 and 3 of a
four-element collection leaves the elements originally at 0 and 2. -/
theorem C6_witness :
    delete_selected_projects appFour = some (appFourAfterDelete, [[pW0, pW2]]) := by
  have := C6_delete appFour (by decide)
  rw [this]
  decide

/-! ### C8 — the 1000-line log cap -/

/-- A full log of 1000 one-character lines: the shape of the buffer after
1000 appended one-character entries, each line newline-terminated. -/
def fullLog : String := String.mk (List.flatten (List.replicate 1000 ('x' :: ['\n'])))

set_option maxRecDepth 8192 in
/-- C8, demonstration of the defect: on a full 1000-line log, appending the
entry `a` and then the entry `b` through `log_error` leaves a 1000-line log
in which `[ERROR] a` is not a line, while the glued `[ERROR] a[ERROR] b` is:
the truncation's `lines().join("\n")` drops the buffer's trailing newline,
so the next appended entry is concatenated onto the last line.  Appending
1200 entries therefore does not leave the last 1000 entries as distinct
lines. -/
theorem C8_log_glue :
    (rustLines (log_error "b" (log_error "a" fullLog)).data).length = 1000 ∧
    (rustLines (log_error "b" (log_error "a" fullLog)).data).contains
      ("[ERROR] a".data) = false ∧
    (rustLines (log_error "b" (log_error "a" fullLog)).data).contains
      ("[ERROR] a[ERROR] b".data) = true := by decide

/-! ### C9 — sync does not touch the project store -/

/-- C9: a completed batch leaves the project collection exactly as it was
and writes nothing to the configuration file. -/
theorem C9_sync_frame (env : Nat → GitEnv) (s : App) (r : App × SyncEffects)
    (h : update_selected_projects env s = some r) :
    r.1.projects = s.projects ∧ r.2.configWrites = [] := by
  simp only [update_selected_projects] at h
  cases hsl : syncLoop env s.projects ((selectedIndices s.selected_projects).length : ℚ)
      (selectedIndices s.selected_projects) 0 with
  | none => rw [hsl] at h; cases h
  | some tr =>
    obtain ⟨msgs, progs, muts⟩ := tr
    rw [hsl] at h
    simp only [Option.some.injEq] at h
    rw [← h]
    exact ⟨rfl, rfl⟩

/-- C9 witness. -/
theorem C9_witness :
    ∃ r, update_selected_projects (fun _ => envAllOk) appTwoSel = some r ∧
      r.1.projects = appTwoSel.projects ∧ r.2.configWrites = [] := by
  cases hu : update_selected_projects (fun _ => envAllOk) appTwoSel with
  | none => exact absurd hu (by decide)
  | some r => exact ⟨r, rfl, C9_sync_frame (fun _ => envAllOk) appTwoSel r hu⟩

/-! ### C10 — the selection-vector invariant -/

/-- C10: the selection vector always matches the collection's length — at
startup, across registration and deletion — and a completed batch resets
every flag to `false` (length preserved). -/
theorem C10_selection_invariant :
    (∀ contents, (appDefault contents).selected_projects.length =
      (appDefault contents).projects.length) ∧
    (∀ (env : RegEnv) (s : App), s.selected_projects.length = s.projects.length →
      (addProject env s).1.selected_projects.length = (addProject env s).1.projects.length) ∧
    (∀ (s s2 : App) (w : List (List Project)),
      s.selected_projects.length = s.projects.length →
      delete_selected_projects s = some (s2, w) →
      s2.selected_projects.length = s2.projects.length) ∧
    (∀ (env : Nat → GitEnv) (s : App) (r : App × SyncEffects),
      update_selected_projects env s = some r →
      r.1.selected_projects = List.replicate s.selected_projects.length false) := by
  refine ⟨?_, ?_, ?_, ?_⟩
  · intro contents
    simp [appDefault]
  · intro env s h
    by_cases hc : (!s.new_project.path.isEmpty && !s.new_project.name.isEmpty) = true
    · by_cases ho : env.open_ok = true
      · by_cases hr : env.origin_ok = true
        · simp [addProject, hc, ho, hr, h]
        · simp [addProject, hc, ho, hr, h]
      · simp [addProject, hc, ho, h]
    · simp [addProject, hc, h]
  · intro s s2 w h hdel
    simp only [delete_selected_projects] at hdel
    cases hrp : removeAllPair (indicesToRemove s.selected_projects)
        (s.projects, s.selected_projects) with
    | none => rw [hrp] at hdel; cases hdel
    | some pr =>
      obtain ⟨ps2, sel2⟩ := pr
      rw [hrp] at hdel
      simp only [Option.some.injEq, Prod.mk.injEq] at hdel
      have hlen := removeAllPair_length (indicesToRemove s.selected_projects)
        s.projects s.selected_projects ps2 sel2 h.symm hrp
      rw [← hdel.1]
      exact hlen.symm
  · intro env s r h
    simp only [update_selected_projects] at h
    cases hsl : syncLoop env s.projects ((selectedIndices s.selected_projects).length : ℚ)
        (selectedIndices s.selected_projects) 0 with
    | none => rw [hsl] at h; cases h
    | some tr =>
      obtain ⟨msgs, progs, muts⟩ := tr
      rw [hsl] at h
      simp only [Option.some.injEq] at h
      rw [← h]
      exact List.map_const' s.selected_projects false

/-- C10 witness: each leg at a concrete input. -/
theorem C10_witness :
    (appDefault none).selected_projects.length = (appDefault none).projects.length ∧
    (addProject { open_ok := true, origin_ok := true } appReg).1.selected_projects.length =
      (addProject { open_ok := true, origin_ok := true } appReg).1.projects.length ∧
    appFourAfterDelete.selected_projects.length = appFourAfterDelete.projects.length ∧
    (∃ r, update_selected_projects (fun _ => envAllOk) appTwoSel = some r ∧
      r.1.selected_projects = List.replicate appTwoSel.selected_projects.length false) := by
  refine ⟨C10_selection_invariant.1 none,
          C10_selection_invariant.2.1 { open_ok := true, origin_ok := true } appReg rfl,
          C10_selection_invariant.2.2.1 appFour appFourAfterDelete
            [[pW0, pW2]] rfl (by decide), ?_⟩
  cases hu : update_selected_projects (fun _ => envAllOk) appTwoSel with
  | none => exact absurd hu (by decide)
  | some r =>
    exact ⟨r, rfl, C10_selection_invariant.2.2.2 (fun _ => envAllOk) appTwoSel r hu⟩

/-! ### C7 — the JSON round trip -/

/-- Guard on the serialized format: one concrete collection prints exactly
as `serde_json::to_string_pretty` does. -/
theorem encodeProjects_format_guard :
    String.mk (encodeProjects [{ path := "a", name := "b", notes := "c" }]) =
      "[\n  \x7b\n    \x22path\x22: \x22a\x22,\n    \x22name\x22: \x22b\x22,\n    \x22notes\x22: \x22c\x22\n  \x7d\n]" := by
  decide

theorem hexVal?_hexDigitChar : ∀ n, n < 16 → hexVal? (hexDigitChar n) = some n := by decide

theorem parseStringBody_escapeChar (c : Char) (X : List Char) :
    parseStringBody (escapeChar c ++ X) =
      (parseStringBody X).map (fun r => (c :: r.1, r.2)) := by
  by_cases h1 : c = '\x22'
  · subst h1
    rw [show escapeChar '\x22' ++ X = '\\' :: '\x22' :: X from rfl, parseStringBody.eq_def]
    simp +decide
  by_cases h2 : c = '\\'
  · subst h2
    rw [show escapeChar '\\' ++ X = '\\' :: '\\' :: X from rfl, parseStringBody.eq_def]
    simp +decide
  by_cases h3 : c = '\x08'
  · subst h3
    rw [show escapeChar '\x08' ++ X = '\\' :: 'b' :: X from rfl, parseStringBody.eq_def]
    simp +decide
  by_cases h4 : c = '\t'
  · subst h4
    rw [show escapeChar '\t' ++ X = '\\' :: 't' :: X from rfl, parseStringBody.eq_def]
    simp +decide
  by_cases h5 : c = '\n'
  · subst h5
    rw [show escapeChar '\n' ++ X = '\\' :: 'n' :: X from rfl, parseStringBody.eq_def]
    simp +decide
  by_cases h6 : c = '\x0c'
  · subst h6
    rw [show escapeChar '\x0c' ++ X = '\\' :: 'f' :: X from rfl, parseStringBody.eq_def]
    simp +decide
  by_cases h7 : c = '\r'
  · subst h7
    rw [show escapeChar '\r' ++ X = '\\' :: 'r' :: X from rfl, parseStringBody.eq_def]
    simp +decide
  by_cases h8 : c.toNat < 32
  · have hesc : escapeChar c ++ X
        = '\\' :: 'u' :: '0' :: '0' :: hexDigitChar (c.toNat / 16)
            :: hexDigitChar (c.toNat % 16) :: X := by
      simp only [escapeChar, if_neg h1, if_neg h2, if_neg h3, if_neg h4, if_neg h5,
        if_neg h6, if_neg h7, if_pos h8, List.cons_append, List.nil_append]
    have e0 : hexVal? '0' = some 0 := by decide
    have e1 := hexVal?_hexDigitChar (c.toNat / 16) (by omega)
    have e2 := hexVal?_hexDigitChar (c.toNat % 16) (by omega)
    have hv : Nat.isValidChar c.toNat := Or.inl (by omega)
    rw [hesc, parseStringBody.eq_def]
    simp +decide [e0, e1, e2]
    rw [show c.toNat / 16 * 16 + c.toNat % 16 = c.toNat by omega, if_pos hv,
      Char.ofNat_toNat]
  · have hesc : escapeChar c ++ X = c :: X := by
      simp only [escapeChar, if_neg h1, if_neg h2, if_neg h3, if_neg h4, if_neg h5,
        if_neg h6, if_neg h7, if_neg h8, List.singleton_append]
    rw [hesc, parseStringBody.eq_def]
    simp only [if_neg h1, if_neg h2, if_neg h8]

theorem parseStringBody_encoded (s : List Char) : ∀ rest : List Char,
    parseStringBody (s.flatMap escapeChar ++ '\x22' :: rest) = some (s, rest) := by
  induction s with
  | nil =>
    intro rest
    rw [show ([] : List Char).flatMap escapeChar ++ '\x22' :: rest = '\x22' :: rest from rfl,
      parseStringBody.eq_def]
    simp
  | cons c s ih =>
    intro rest
    simp only [List.flatMap_cons, List.append_assoc]
    rw [parseStringBody_escapeChar c _, ih rest]
    rfl

theorem parseJsonString_encodeString (v : String) (rest : List Char) :
    parseJsonString (encodeString v ++ rest) = some (v.data, rest) := by
  simp only [encodeString, List.cons_append, List.append_assoc, List.singleton_append]
  simp +decide only [parseJsonString]
  exact parseStringBody_encoded v.data rest

theorem skipWs_cons_ws {c : Char} (h : isWs c = true) (l : List Char) :
    skipWs (c :: l) = skipWs l := by
  simp [skipWs, List.dropWhile_cons, h]

theorem skipWs_cons_not {c : Char} (h : isWs c = false) (l : List Char) :
    skipWs (c :: l) = c :: l := by
  simp [skipWs, List.dropWhile_cons, h]

theorem skipWs_append_ws {ws : List Char} (h : ∀ c ∈ ws, isWs c = true) (l : List Char) :
    skipWs (ws ++ l) = skipWs l := by
  induction ws with
  | nil => simp
  | cons c cs ih =>
    rw [List.cons_append, skipWs_cons_ws (h c (List.mem_cons_self c cs))]
    exact ih (fun d hd => h d (List.mem_cons_of_mem c hd))

theorem skipWs_idem (l : List Char) : skipWs (skipWs l) = skipWs l := by
  induction l with
  | nil => rfl
  | cons c cs ih =>
    cases hc : isWs c with
    | true => rw [skipWs_cons_ws hc, ih]
    | false => rw [skipWs_cons_not hc, skipWs_cons_not hc]

theorem skipWs_encodeString (v : String) (rest : List Char) :
    skipWs (encodeString v ++ rest) = encodeString v ++ rest := by
  simp only [encodeString, List.cons_append]
  exact skipWs_cons_not (by decide) _

/-- The three serialized keys escape to themselves, so the body of their
string literal parses back verbatim. -/
theorem parseStringBody_key (key : String) (hkey : key.data.flatMap escapeChar = key.data)
    (rest : List Char) :
    parseStringBody (key.data ++ '\x22' :: rest) = some (key.data, rest) := by
  conv_lhs => rw [← hkey]
  exact parseStringBody_encoded key.data rest

theorem parseJsonString_key (key : String) (hkey : key.data.flatMap escapeChar = key.data)
    (rest : List Char) :
    parseJsonString ('\x22' :: (key.data ++ '\x22' :: rest)) = some (key.data, rest) := by
  show parseStringBody (key.data ++ '\x22' :: rest) = some (key.data, rest)
  exact parseStringBody_key key hkey rest

theorem parseField_keyPrefix (key v : String) (tail : List Char)
    (hkey : key.data.flatMap escapeChar = key.data) :
    parseField key (keyPrefix key ++ (encodeString v ++ tail)) = some (v.data, tail) := by
  simp only [keyPrefix, List.cons_append, List.append_assoc, List.nil_append]
  simp only [parseField]
  rw [skipWs_cons_ws (by decide), skipWs_cons_ws (by decide), skipWs_cons_ws (by decide),
    skipWs_cons_ws (by decide), skipWs_cons_ws (by decide), skipWs_cons_not (by decide)]
  rw [parseJsonString_key key hkey]
  simp only [Option.some_bind, eq_self_iff_true, if_true]
  rw [skipWs_cons_not (by decide)]
  simp only [expectChar, eq_self_iff_true, if_true, Option.some_bind]
  rw [skipWs_cons_ws (by decide), skipWs_encodeString, parseJsonString_encodeString]

theorem parseProject_encoded (ws0 : List Char) (p : Project) (tail : List Char)
    (hws : ∀ c ∈ ws0, isWs c = true) :
    parseProject (ws0 ++ (encodeProject p ++ tail)) = some (p, tail) := by
  simp only [encodeProject, List.cons_append, List.append_assoc, List.nil_append]
  simp only [parseProject]
  rw [skipWs_append_ws hws, skipWs_cons_ws (by decide), skipWs_cons_ws (by decide),
    skipWs_cons_not (by decide)]
  simp only [expectChar, eq_self_iff_true, if_true, Option.some_bind]
  rw [parseField_keyPrefix "path" p.path _ (by decide)]
  simp only [Option.some_bind]
  rw [skipWs_cons_not (by decide)]
  simp only [expectChar, eq_self_iff_true, if_true, Option.some_bind]
  rw [parseField_keyPrefix "name" p.name _ (by decide)]
  simp only [Option.some_bind]
  rw [skipWs_cons_not (by decide)]
  simp only [expectChar, eq_self_iff_true, if_true, Option.some_bind]
  simp only [objEnd, List.cons_append, List.nil_append]
  rw [parseField_keyPrefix "notes" p.notes _ (by decide)]
  simp only [Option.some_bind]
  rw [skipWs_cons_ws (by decide), skipWs_cons_ws (by decide), skipWs_cons_ws (by decide),
    skipWs_cons_not (by decide)]
  simp only [expectChar, eq_self_iff_true, if_true, Option.map_some']

theorem intercalate_one {α : Type} (sep a : List α) : List.intercalate sep [a] = a := by
  simp [List.intercalate, List.intersperse]

theorem intercalate_cons₂ {α : Type} (sep a b : List α) (l : List (List α)) :
    List.intercalate sep (a :: b :: l) = a ++ (sep ++ List.intercalate sep (b :: l)) := by
  simp [List.intercalate, List.intersperse]

theorem parseProject_skipWs (l : List Char) : parseProject (skipWs l) = parseProject l := by
  simp only [parseProject, skipWs_idem]

theorem parseItemsAux_skipWs (fuel : Nat) (l : List Char) :
    parseItemsAux fuel (skipWs l) = parseItemsAux fuel l := by
  cases fuel with
  | zero => rfl
  | succ f => simp only [parseItemsAux, parseProject_skipWs]

theorem parseItemsAux_encoded : ∀ (ps : List Project) (fuel : Nat) (ws0 tail : List Char),
    ps ≠ [] → ps.length ≤ fuel → (∀ c ∈ ws0, isWs c = true) →
    parseItemsAux fuel
      (ws0 ++ (List.intercalate (',' :: ['\n']) (ps.map encodeProject) ++ ('\n' :: ']' :: tail)))
      = some (ps, tail) := by
  intro ps
  induction ps with
  | nil => intro fuel ws0 tail hne; exact absurd rfl hne
  | cons p rest ih =>
    intro fuel ws0 tail _ hlen hws
    cases fuel with
    | zero => simp at hlen
    | succ f =>
      cases rest with
      | nil =>
        simp only [List.map_cons, List.map_nil, intercalate_one]
        simp only [parseItemsAux]
        rw [parseProject_encoded ws0 p _ hws]
        simp only [Option.some_bind]
        rw [skipWs_cons_ws (by decide), skipWs_cons_not (by decide)]
        simp +decide [List.head?_cons, List.tail_cons]
      | cons q t =>
        simp only [List.map_cons]
        rw [intercalate_cons₂]
        simp only [List.append_assoc, List.cons_append, List.nil_append]
        simp only [parseItemsAux]
        rw [parseProject_encoded ws0 p _ hws]
        simp only [Option.some_bind]
        rw [skipWs_cons_not (by decide)]
        have hih := ih f ['\n'] tail (by simp) (by simpa using hlen) (by decide)
        simp only [List.map_cons, List.singleton_append, List.append_assoc] at hih
        simp only [List.head?_cons, List.tail_cons, Option.some.injEq, if_pos]
        rw [hih]
        rfl

theorem one_le_length_encodeProject (p : Project) : 1 ≤ (encodeProject p).length := by
  simp [encodeProject]

theorem length_intercalate_encode (ps : List Project) :
    ps.length ≤ (List.intercalate (',' :: ['\n']) (ps.map encodeProject)).length := by
  induction ps with
  | nil => simp
  | cons p rest ih =>
    cases rest with
    | nil =>
      simp only [List.map_cons, List.map_nil, intercalate_one, List.length_cons,
        List.length_nil]
      exact one_le_length_encodeProject p
    | cons q t =>
      simp only [List.map_cons]
      rw [intercalate_cons₂]
      simp only [List.length_append, List.length_cons]
      have h1 := one_le_length_encodeProject p
      have h2 : (q :: t).length
          ≤ (List.intercalate (',' :: ['\n']) ((q :: t).map encodeProject)).length := ih
      simp only [List.length_cons, List.map_cons] at h2 ⊢
      omega

/-- The decoder inverts the encoder on every collection. -/
theorem parseProjects_encodeProjects (ps : List Project) :
    parseProjects (encodeProjects ps) = some ps := by
  cases ps with
  | nil => decide
  | cons p t =>
    have hsplit : ∃ R, List.intercalate (',' :: ['\n']) ((p :: t).map encodeProject)
        ++ ('\n' :: ']' :: ([] : List Char)) = encodeProject p ++ R := by
      cases t with
      | nil => exact ⟨'\n' :: ']' :: [], by simp [intercalate_one]⟩
      | cons q t2 =>
        refine ⟨(',' :: ['\n']) ++ (List.intercalate (',' :: ['\n'])
          ((q :: t2).map encodeProject) ++ ('\n' :: ']' :: [])), ?_⟩
        simp only [List.map_cons]
        rw [intercalate_cons₂]
        simp [List.append_assoc]
    obtain ⟨R, hR⟩ := hsplit
    have hex : ∃ Z, skipWs ('\n' :: (List.intercalate (',' :: ['\n'])
        ((p :: t).map encodeProject) ++ ('\n' :: ']' :: ([] : List Char)))) = '\x7b' :: Z := by
      rw [show ('\n' : Char) :: (List.intercalate (',' :: ['\n']) ((p :: t).map encodeProject)
          ++ ('\n' :: ']' :: ([] : List Char))) = '\n' :: (encodeProject p ++ R) from by rw [hR]]
      simp only [encodeProject, List.cons_append, List.append_assoc]
      rw [skipWs_cons_ws (by decide), skipWs_cons_ws (by decide), skipWs_cons_ws (by decide),
        skipWs_cons_not (by decide)]
      exact ⟨_, rfl⟩
    obtain ⟨Z, hskip⟩ := hex
    have hfuel : (p :: t).length ≤ (encodeProjects (p :: t)).length + 1 := by
      have hi := length_intercalate_encode (p :: t)
      simp only [encodeProjects, List.length_cons, List.length_append] at hi ⊢
      omega
    have happ := parseItemsAux_encoded (p :: t) ((encodeProjects (p :: t)).length + 1)
      ['\n'] [] (by simp) hfuel (by decide)
    simp only [List.singleton_append] at happ
    simp only [encodeProjects] at happ ⊢
    simp only [parseProjects]
    rw [skipWs_cons_not (by decide)]
    simp +decide only [List.head?_cons, List.tail_cons, if_true]
    simp +decide only [hskip, List.head?_cons, List.tail_cons]
    rw [← hskip, parseItemsAux_skipWs, happ]
    simp +decide

/-- C7: persist followed by load is a round trip — a collection written by
`save_config` reloads at startup as exactly the same records in order — and a
missing or unparsable configuration file loads as the empty collection
instead of failing startup. -/
theorem C7_round_trip :
    (∀ ps : List Project, (appDefault (some (save_config ps))).projects = ps) ∧
    (appDefault none).projects = [] ∧
    (appDefault (some "This is not a JSON document")).projects = [] := by
  refine ⟨?_, rfl, by decide⟩
  intro ps
  simp only [appDefault, loadProjects, save_config]
  rw [parseProjects_encodeProjects]
  rfl

end Gitpull
